import Mathlib

/-!
Verification of the Tetris core (`src/tetris/shapes.py`, `src/tetris/board.py`)
against its natural-language specification.

The Python code is shallowly embedded: the mutable `Board` dataclass becomes an
immutable structure with every mutating method turned into a state-passing
function, Python `int` becomes `Int` (grid cell values, scores and dimensions,
which are never negative, become `Nat`), and the injected random source becomes
an explicit argument carrying the tetromino that `random.choice(TETROMINOES)`
would have drawn.  The two `while` loops of the source (`hard_drop` and
`ghost_piece`) are embedded with an explicit fuel of `height + 1`, which is
shown sufficient whenever the piece occupies at least one cell (each iteration
increases the y coordinate of that cell, and validity bounds it by `height`).
-/

namespace Tetris

/-- A rotation state: a 2-D grid of 0/1 cell values (`shapes.Grid`). -/
abbrev Grid := List (List Nat)

/-- `shapes.Tetromino`: a name and an ordered tuple of rotation grids. -/
structure Tetromino where
  name : String
  rotations : List Grid
deriving DecidableEq, Repr

/-- `Tetromino.rotated(index)`: the rotation grid at `index % len(rotations)`.
Lean's `Int.emod` agrees with Python `%` for a positive modulus. -/
def Tetromino.rotated (t : Tetromino) (index : Int) : Grid :=
  t.rotations.getD (index % (t.rotations.length : Int)).toNat []

/-- `shapes.iter_cells`: coordinates `(x, y)` of all filled cells of a grid,
in row-major order. -/
def iter_cells (g : Grid) : List (Int × Int) :=
  (g.enum.map (fun yrow =>
    yrow.2.enum.filterMap (fun xv =>
      if xv.2 ≠ 0 then some ((xv.1 : Int), (yrow.1 : Int)) else none))).flatten

/-- The tetromino catalog `shapes.TETROMINOES`, transcribed verbatim. -/
def TETROMINOES : List Tetromino :=
  [ ⟨"I", [ [ [0,0,0,0], [1,1,1,1], [0,0,0,0], [0,0,0,0] ],
            [ [0,1,0,0], [0,1,0,0], [0,1,0,0], [0,1,0,0] ] ]⟩,
    ⟨"O", [ [ [1,1], [1,1] ] ]⟩,
    ⟨"T", [ [ [0,1,0], [1,1,1], [0,0,0] ],
            [ [0,1,0], [0,1,1], [0,1,0] ],
            [ [0,0,0], [1,1,1], [0,1,0] ],
            [ [0,1,0], [1,1,0], [0,1,0] ] ]⟩,
    ⟨"S", [ [ [0,1,1], [1,1,0], [0,0,0] ],
            [ [0,1,0], [0,1,1], [0,0,1] ] ]⟩,
    ⟨"Z", [ [ [1,1,0], [0,1,1], [0,0,0] ],
            [ [0,0,1], [0,1,1], [0,1,0] ] ]⟩,
    ⟨"J", [ [ [1,0,0], [1,1,1], [0,0,0] ],
            [ [0,1,1], [0,1,0], [0,1,0] ],
            [ [0,0,0], [1,1,1], [0,0,1] ],
            [ [0,1,0], [0,1,0], [1,1,0] ] ]⟩,
    ⟨"L", [ [ [0,0,1], [1,1,1], [0,0,0] ],
            [ [0,1,0], [0,1,0], [0,1,1] ],
            [ [0,0,0], [1,1,1], [1,0,0] ],
            [ [1,1,0], [0,1,0], [0,1,0] ] ]⟩ ]

/-- `board.FallingPiece`: a tetromino, a rotation index and anchor coordinates. -/
structure FallingPiece where
  tetromino : Tetromino
  rotation : Int
  x : Int
  y : Int
deriving DecidableEq, Repr

/-- `FallingPiece.cells`: absolute coordinates occupied by the piece. -/
def FallingPiece.cells (p : FallingPiece) : List (Int × Int) :=
  (iter_cells (p.tetromino.rotated p.rotation)).map
    (fun c => (p.x + c.1, p.y + c.2))

/-- `FallingPiece.rotated(delta)`: rotation index advanced by `delta`, wrapped
modulo the rotation-state count; anchor unchanged. -/
def FallingPiece.rotated (p : FallingPiece) (delta : Int) : FallingPiece :=
  { p with rotation := (p.rotation + delta) % (p.tetromino.rotations.length : Int) }

/-- `FallingPiece.moved(dx, dy)`: anchor shifted by `(dx, dy)`. -/
def FallingPiece.moved (p : FallingPiece) (dx dy : Int) : FallingPiece :=
  { p with x := p.x + dx, y := p.y + dy }

/-- The `board.Board` dataclass after `__post_init__`. -/
structure Board where
  width : Nat
  height : Nat
  grid : List (List Nat)
  current : Option FallingPiece
  next_piece : Tetromino
  score : Nat
  level : Nat
  lines_cleared : Nat
deriving DecidableEq, Repr

/-- `Board.__post_init__`: empty grid, no current piece, level 1; the random
draw populating `next_piece` is passed explicitly. -/
def Board.init (w h : Nat) (first : Tetromino) : Board :=
  { width := w, height := h,
    grid := List.replicate h (List.replicate w 0),
    current := none, next_piece := first,
    score := 0, level := 1, lines_cleared := 0 }

/-- Cell lookup `grid[y][x]` (meaningful only at in-range indices, which every
use guards exactly as the Python source does). -/
def cellAt (g : List (List Nat)) (x y : Int) : Nat :=
  (g.getD y.toNat []).getD x.toNat 0

/-- `Board.is_valid_position`, abstracted over the three fields it reads:
every occupied cell is in bounds and on an unfilled (`0`) grid cell. -/
def validOn (w h : Nat) (g : List (List Nat)) (p : FallingPiece) : Bool :=
  p.cells.all fun c =>
    decide (0 ≤ c.1) && decide (c.1 < (w : Int)) &&
    decide (0 ≤ c.2) && decide (c.2 < (h : Int)) &&
    (cellAt g c.1 c.2 == 0)

/-- `Board.is_valid_position(piece)`. -/
def Board.is_valid_position (b : Board) (p : FallingPiece) : Bool :=
  validOn b.width b.height b.grid p

/-- `Board.spawn_piece`: consume `next_piece` (replacing it with the explicit
random draw `drawn`), build a piece at rotation 0, horizontally centered, y = 0;
adopt it as `current` iff the position is valid.  Returns the Python result
paired with the updated board. -/
def Board.spawn_piece (b : Board) (drawn : Tetromino) : Bool × Board :=
  let tetromino := b.next_piece
  let b1 := { b with next_piece := drawn }
  let piece : FallingPiece :=
    { tetromino := tetromino, rotation := 0,
      x := ((b.width / 2 : Nat) : Int) -
           ((((tetromino.rotated 0).getD 0 []).length / 2 : Nat) : Int),
      y := 0 }
  if b1.is_valid_position piece then (true, { b1 with current := some piece })
  else (false, b1)

/-- One guarded grid write `grid[y][x] = v` under
`0 <= y < height and 0 <= x < width` (the guard used by `lock_piece`). -/
def writeCell (w h : Nat) (g : List (List Nat)) (c : Int × Int) (v : Nat) :
    List (List Nat) :=
  if 0 ≤ c.2 ∧ c.2 < (h : Int) ∧ 0 ≤ c.1 ∧ c.1 < (w : Int) then
    g.set c.2.toNat ((g.getD c.2.toNat []).set c.1.toNat v)
  else g

/-- The cell-committing loop of `Board.lock_piece`. -/
def commitCells (w h : Nat) (cells : List (Int × Int)) (g : List (List Nat)) :
    List (List Nat) :=
  cells.foldl (fun g c => writeCell w h g c 1) g

/-- A row is fully filled: Python `all(row)` (every cell truthy). -/
def fullRow (r : List Nat) : Bool := r.all (fun v => v != 0)

/-- `Board.clear_lines`: drop fully-filled rows, pad with fresh zero rows at
the top back to `height`, return the number removed with the new board.
(The Python `while` pads with exactly `height - len(new_grid)` rows; the count
it returns equals that same difference whenever the grid had `height` rows,
which every reachable board does.) -/
def Board.clear_lines (b : Board) : Nat × Board :=
  let newGrid := b.grid.filter (fun row => !(fullRow row))
  let cleared := b.height - newGrid.length
  (cleared,
   { b with grid :=
       List.replicate (b.height - newGrid.length) (List.replicate b.width 0) ++
       newGrid })

/-- The base-points table `{1: 100, 2: 300, 3: 500, 4: 800}.get(lines, 0)`
of `Board.calculate_score`. -/
def scoreBase : Nat → Nat
  | 1 => 100
  | 2 => 300
  | 3 => 500
  | 4 => 800
  | _ => 0

/-- `Board.calculate_score(lines)`: base points for a simultaneous clear count,
multiplied by the level read at call time. -/
def Board.calculate_score (b : Board) (lines : Nat) : Nat :=
  scoreBase lines * b.level

/-- `Board.lock_piece`: commit the current piece's in-bounds cells as 1s, clear
`current`, run line clearing; if any lines cleared, bump `lines_cleared`, add
score using the pre-update level, then recompute the level. -/
def Board.lock_piece (b : Board) : Board :=
  match b.current with
  | none => b
  | some cur =>
    let b1 : Board :=
      { b with grid := commitCells b.width b.height cur.cells b.grid,
               current := none }
    let r := b1.clear_lines
    if r.1 ≠ 0 then
      { r.2 with
        lines_cleared := r.2.lines_cleared + r.1,
        score := r.2.score + r.2.calculate_score r.1,
        level := (r.2.lines_cleared + r.1) / 10 + 1 }
    else r.2

/-- `Board.move(dx, dy)`: adopt `current.moved(dx, dy)` if valid; on an invalid
downward move lock the piece; otherwise leave the board unchanged. -/
def Board.move (b : Board) (dx dy : Int) : Bool × Board :=
  match b.current with
  | none => (false, b)
  | some cur =>
    let moved := cur.moved dx dy
    if b.is_valid_position moved then (true, { b with current := some moved })
    else if dy > 0 then (false, b.lock_piece)
    else (false, b)

/-- `Board.rotate(delta)`: adopt `current.rotated(delta)` iff valid. -/
def Board.rotate (b : Board) (delta : Int) : Bool × Board :=
  match b.current with
  | none => (false, b)
  | some cur =>
    let rotated := cur.rotated delta
    if b.is_valid_position rotated then (true, { b with current := some rotated })
    else (false, b)

/-- The `while self.move(0, 1): pass` loop of `Board.hard_drop`, with fuel. -/
def hardDropAux : Nat → Board → Board
  | 0, b => b
  | fuel + 1, b =>
    let r := b.move 0 1
    if r.1 then hardDropAux fuel r.2 else r.2

/-- `Board.hard_drop`: no-op without a current piece, else drop until `move`
fails (fuel `height + 1` suffices: a piece with at least one cell can fall at
most `height` times before leaving the grid). -/
def Board.hard_drop (b : Board) : Board :=
  match b.current with
  | none => b
  | some _ => hardDropAux (b.height + 1) b

/-- The `while` loop of `Board.ghost_piece`, with fuel: advance by (0, 1)
while the advanced position is still valid. -/
def ghostAux (b : Board) : Nat → FallingPiece → FallingPiece
  | 0, g => g
  | fuel + 1, g =>
    if b.is_valid_position (g.moved 0 1) then ghostAux b fuel (g.moved 0 1)
    else g

/-- `Board.ghost_piece`: furthest valid downward position of `current`
(fuel `height + 1` suffices for any piece with at least one cell). -/
def Board.ghost_piece (b : Board) : Option FallingPiece :=
  match b.current with
  | none => none
  | some cur => some (ghostAux b (b.height + 1) cur)

/-- The ghost-painting write of `Board.as_rows`: write 3 only at in-bounds
cells whose snapshot value is still 0. -/
def writeGhostCell (w h : Nat) (g : List (List Nat)) (c : Int × Int) :
    List (List Nat) :=
  if 0 ≤ c.2 ∧ c.2 < (h : Int) ∧ 0 ≤ c.1 ∧ c.1 < (w : Int) ∧
     cellAt g c.1 c.2 = 0 then
    g.set c.2.toNat ((g.getD c.2.toNat []).set c.1.toNat 3)
  else g

/-- `Board.as_rows`: snapshot grid with 2 painted on current-piece cells and 3
painted on ghost cells that are otherwise empty. -/
def Board.as_rows (b : Board) : List (List Nat) :=
  let g1 :=
    match b.current with
    | none => b.grid
    | some cur => cur.cells.foldl (fun g c => writeCell b.width b.height g c 2) b.grid
  match b.ghost_piece with
  | none => g1
  | some gh => gh.cells.foldl (fun g c => writeGhostCell b.width b.height g c) g1

/-! ### Concrete fixtures used by witnesses -/

/-- The I tetromino of the catalog. -/
def tetI : Tetromino := TETROMINOES.getD 0 ⟨"", []⟩

/-- The O tetromino of the catalog. -/
def tetO : Tetromino := TETROMINOES.getD 1 ⟨"", []⟩

/-- The piece `spawn_piece` builds from the O tetromino on a width-10 board. -/
def pieceO : FallingPiece := ⟨tetO, 0, 4, 0⟩

/-- A 10×20 board holding a freshly spawned O piece. -/
def sampleBoard : Board := ((Board.init 10 20 tetO).spawn_piece tetO).2

/-- A 4×5 board whose grid is fully obstructed. -/
def blockedBoard : Board :=
  { Board.init 4 5 tetO with
    grid := List.replicate 5 (List.replicate 4 1),
    current := some ⟨tetO, 0, 1, 2⟩ }

/-- The piece `spawn_piece` constructs before testing validity. -/
def spawnCandidate (b : Board) : FallingPiece :=
  { tetromino := b.next_piece, rotation := 0,
    x := ((b.width / 2 : Nat) : Int) -
         ((((b.next_piece.rotated 0).getD 0 []).length / 2 : Nat) : Int),
    y := 0 }

/-- One clockwise rotation step, `rotated(1)`. -/
def rotateOnce (p : FallingPiece) : FallingPiece := p.rotated 1

/-- A 4×5 board with two interleaved full rows. -/
def stripedBoard : Board :=
  { Board.init 4 5 tetO with
    grid := [[0,0,0,0],[0,1,0,0],[1,1,1,1],[0,0,1,0],[1,1,1,1]] }

/-- A 4×6 board at level 1 whose bottom four rows are full, with a current
O piece parked at the top. -/
def tetrisBoard : Board :=
  { Board.init 4 6 tetO with
    grid := [[0,0,0,0],[0,0,0,0],
             [1,1,1,1],[1,1,1,1],[1,1,1,1],[1,1,1,1]],
    current := some ⟨tetO, 0, 0, 0⟩ }

/-- Apply `move(0, 1)` `k` times, keeping only the state: the repeated
soft-drop calls of the spec's gravity property. -/
def moveDownIter : Nat → Board → Board
  | 0, b => b
  | k + 1, b => moveDownIter k (b.move 0 1).2

/-- Cell value of a snapshot grid at row `y`, column `x`. -/
def getRC (g : List (List Nat)) (y x : Nat) : Nat := (g.getD y []).getD x 0

/-- Does an optional piece cover board cell `(x, y)`? -/
def coversCell (o : Option FallingPiece) (x y : Nat) : Bool :=
  match o with
  | none => false
  | some p => p.cells.contains ((x : Int), (y : Int))

/-- The grid is an `h × w` matrix. -/
def gridOk (w h : Nat) (g : List (List Nat)) : Prop :=
  g.length = h ∧ ∀ r ∈ g, r.length = w

/-- No row of the grid is fully filled. -/
def noFullRows (g : List (List Nat)) : Prop := ∀ r ∈ g, fullRow r = false

/-- The inductive invariant of `Board`: the grid keeps its declared
dimensions, a positive-width grid never retains a full row outside
`lock_piece` (locking clears them at once), the lookahead comes from the
catalog, and the current piece — when present — sits at a valid position and
references a catalog tetromino. -/
def Inv (b : Board) : Prop :=
  gridOk b.width b.height b.grid ∧
  (0 < b.width → noFullRows b.grid) ∧
  b.next_piece ∈ TETROMINOES ∧
  ∀ p, b.current = some p →
    b.is_valid_position p = true ∧ p.tetromino ∈ TETROMINOES

/-- Board states reachable from a fresh board through the public operations.
`ghost_piece` and `as_rows` return values without touching the state, so they
need no transition. -/
inductive Reachable : Board → Prop
  | start (w h : Nat) (t : Tetromino) (ht : t ∈ TETROMINOES) :
      Reachable (Board.init w h t)
  | spawn (b : Board) (t : Tetromino) (ht : t ∈ TETROMINOES)
      (hb : Reachable b) : Reachable (b.spawn_piece t).2
  | move (b : Board) (dx dy : Int) (hb : Reachable b) :
      Reachable (b.move dx dy).2
  | rot (b : Board) (delta : Int) (hb : Reachable b) :
      Reachable (b.rotate delta).2
  | harddrop (b : Board) (hb : Reachable b) : Reachable b.hard_drop
  | lock (b : Board) (hb : Reachable b) : Reachable b.lock_piece
  | clear (b : Board) (hb : Reachable b) : Reachable b.clear_lines.2

/-! ### Helper lemmas -/

/-- `lock_piece` always leaves `current` absent (it clears it when a piece is
present and is a no-op on a board that already has none). -/
theorem lock_piece_current (b : Board) : b.lock_piece.current = none := by
  unfold Board.lock_piece
  cases hc : b.current with
  | none => simp [hc]
  | some c =>
    simp only [Board.clear_lines]
    split <;> rfl

/-- Unfolding equation for `spawn_piece`. -/
theorem spawn_piece_eq (b : Board) (drawn : Tetromino) :
    b.spawn_piece drawn =
      if b.is_valid_position (spawnCandidate b) then
        (true, { b with next_piece := drawn, current := some (spawnCandidate b) })
      else (false, { b with next_piece := drawn }) := rfl

/-! ### C2: the `move` contract -/

/-- C2: with a current piece, `move(dx, dy)` adopts `current.moved(dx, dy)` and
returns true when that position is valid; when it is invalid and `dy > 0` it
locks the piece (leaving `current` absent) and returns false; when it is
invalid and `dy ≤ 0` it returns false leaving the board unchanged; with no
current piece it is a no-op returning false. -/
theorem move_contract (b : Board) (dx dy : Int) :
    (∀ c, b.current = some c →
      (b.is_valid_position (c.moved dx dy) = true →
        b.move dx dy = (true, { b with current := some (c.moved dx dy) })) ∧
      (b.is_valid_position (c.moved dx dy) = false → 0 < dy →
        b.move dx dy = (false, b.lock_piece) ∧ b.lock_piece.current = none) ∧
      (b.is_valid_position (c.moved dx dy) = false → dy ≤ 0 →
        b.move dx dy = (false, b))) ∧
    (b.current = none → b.move dx dy = (false, b)) := by
  constructor
  · intro c hc
    refine ⟨fun hv => ?_, fun hv hdy => ⟨?_, lock_piece_current b⟩, fun hv hdy => ?_⟩
    · simp [Board.move, hc, hv]
    · simp [Board.move, hc, hv, hdy]
    · simp [Board.move, hc, hv, Int.not_lt.mpr hdy]
  · intro hc
    simp [Board.move, hc]

/-- Witness for C2 at a concrete board: a valid downward move is adopted. -/
theorem move_contract_witness :
    sampleBoard.move 0 1 =
      (true, { sampleBoard with current := some (pieceO.moved 0 1) }) :=
  ((move_contract sampleBoard 0 1).1 pieceO (by decide)).1 (by decide)

/-! ### C4: the `spawn_piece` contract -/

/-- C4: `spawn_piece` builds a piece from the stored next piece at rotation 0,
anchor `x = width / 2 - rotationGridWidth / 2`, `y = 0`, replaces the next
piece by the fresh draw; the piece becomes `current` and the call returns true
iff its position is valid, and on failure `current` is left exactly as it was
(in particular it remains absent when it was absent). -/
theorem spawn_contract (b : Board) (drawn : Tetromino) :
    ∀ piece : FallingPiece,
      piece = { tetromino := b.next_piece, rotation := 0,
                x := ((b.width / 2 : Nat) : Int) -
                     ((((b.next_piece.rotated 0).getD 0 []).length / 2 : Nat) : Int),
                y := 0 } →
      (b.is_valid_position piece = true →
        b.spawn_piece drawn =
          (true, { b with next_piece := drawn, current := some piece })) ∧
      (b.is_valid_position piece = false →
        b.spawn_piece drawn = (false, { b with next_piece := drawn }) ∧
        (b.spawn_piece drawn).2.current = b.current) := by
  intro piece hp
  subst hp
  constructor
  · intro hv
    simp [Board.spawn_piece, Board.is_valid_position] at hv ⊢
    simp [hv]
  · intro hv
    simp [Board.spawn_piece, Board.is_valid_position] at hv ⊢
    simp [hv]

/-- Witness for C4: spawning on the obstructed board fails and leaves the
board unchanged apart from the consumed lookahead. -/
theorem spawn_contract_witness :
    blockedBoard.spawn_piece tetI = (false, { blockedBoard with next_piece := tetI }) :=
  ((spawn_contract blockedBoard tetI _ rfl).2 (by decide)).1

/-! ### C10: frame of a failed spawn -/

/-- C10: when `spawn_piece` returns false, the next-piece lookahead has still
been consumed and replaced by the fresh draw, while `current`, the grid, the
score, the level, the line counter and the dimensions are all unchanged. -/
theorem spawn_fail_frame (b : Board) (drawn : Tetromino)
    (h : (b.spawn_piece drawn).1 = false) :
    (b.spawn_piece drawn).2.next_piece = drawn ∧
    (b.spawn_piece drawn).2.current = b.current ∧
    (b.spawn_piece drawn).2.grid = b.grid ∧
    (b.spawn_piece drawn).2.score = b.score ∧
    (b.spawn_piece drawn).2.level = b.level ∧
    (b.spawn_piece drawn).2.lines_cleared = b.lines_cleared ∧
    (b.spawn_piece drawn).2.width = b.width ∧
    (b.spawn_piece drawn).2.height = b.height := by
  rw [spawn_piece_eq] at h ⊢
  split at h <;> simp_all

/-- Witness for C10 at the obstructed board (which also carries a current
piece, showing a failed spawn does not clear it). -/
theorem spawn_fail_frame_witness :
    (blockedBoard.spawn_piece tetI).2.current = blockedBoard.current ∧
    (blockedBoard.spawn_piece tetI).2.next_piece = tetI :=
  ⟨(spawn_fail_frame blockedBoard tetI (by decide)).2.1,
   (spawn_fail_frame blockedBoard tetI (by decide)).1⟩

/-! ### C8: the `rotated` algebra -/

/-- Iterating `rotated(1)` adds the iteration count to the rotation index,
modulo the rotation-state count. -/
theorem rotateOnce_iterate (n : Nat) (p : FallingPiece)
    (h0 : 0 ≤ p.rotation)
    (h1 : p.rotation < (p.tetromino.rotations.length : Int)) :
    (rotateOnce^[n] p).tetromino = p.tetromino ∧
    (rotateOnce^[n] p).rotation =
      (p.rotation + n) % (p.tetromino.rotations.length : Int) := by
  induction n generalizing p with
  | zero =>
    simpa using (Int.emod_eq_of_lt h0 h1).symm
  | succ n ih =>
    have hpos : (0 : Int) < (p.tetromino.rotations.length : Int) :=
      lt_of_le_of_lt h0 h1
    have hne : (p.tetromino.rotations.length : Int) ≠ 0 := ne_of_gt hpos
    have hstep : (rotateOnce p).rotation =
        (p.rotation + 1) % (p.tetromino.rotations.length : Int) := rfl
    have htet : (rotateOnce p).tetromino = p.tetromino := rfl
    have ih2 := ih (rotateOnce p)
      (by rw [hstep]; exact Int.emod_nonneg _ hne)
      (by rw [hstep, htet]; exact Int.emod_lt_of_pos _ hpos)
    rw [Function.iterate_succ_apply]
    refine ⟨by rw [ih2.1, htet], ?_⟩
    rw [ih2.2, htet, hstep, Int.emod_add_emod]
    push_cast
    ring_nf

/-- C8: `rotated(delta)` advances the rotation index by `delta` wrapped modulo
the tetromino's rotation-state count, leaves the anchor and the tetromino
unchanged, treats `delta = -1` as `delta = count - 1`, and composing
`rotated(1)` with itself `count` times restores an in-range rotation index. -/
theorem rotated_contract :
    (∀ (p : FallingPiece) (delta : Int),
      (p.rotated delta).rotation =
        (p.rotation + delta) % (p.tetromino.rotations.length : Int) ∧
      (p.rotated delta).x = p.x ∧ (p.rotated delta).y = p.y ∧
      (p.rotated delta).tetromino = p.tetromino ∧
      p.rotated (-1) = p.rotated ((p.tetromino.rotations.length : Int) - 1)) ∧
    (∀ p : FallingPiece, 0 ≤ p.rotation →
      p.rotation < (p.tetromino.rotations.length : Int) →
      (rotateOnce^[p.tetromino.rotations.length] p).rotation = p.rotation) := by
  constructor
  · intro p delta
    refine ⟨rfl, rfl, rfl, rfl, ?_⟩
    unfold FallingPiece.rotated
    have h : p.rotation + ((p.tetromino.rotations.length : Int) - 1) =
        p.rotation + -1 + (p.tetromino.rotations.length : Int) * 1 := by ring
    rw [h, Int.add_mul_emod_self_left]
  · intro p h0 h1
    have h := (rotateOnce_iterate p.tetromino.rotations.length p h0 h1).2
    rw [h]
    have h2 : p.rotation + (p.tetromino.rotations.length : Int) =
        p.rotation + (p.tetromino.rotations.length : Int) * 1 := by ring
    rw [h2, Int.add_mul_emod_self_left, Int.emod_eq_of_lt h0 h1]

/-- Witness for C8 at the O piece (rotation-state count 1). -/
theorem rotated_contract_witness :
    (0 : Int) ≤ pieceO.rotation ∧
    pieceO.rotation < (pieceO.tetromino.rotations.length : Int) ∧
    (rotateOnce^[pieceO.tetromino.rotations.length] pieceO).rotation =
      pieceO.rotation :=
  ⟨by decide, by decide, rotated_contract.2 pieceO (by decide) (by decide)⟩

/-! ### C5: the `clear_lines` contract -/

/-- C5: on a grid of the fixed height, `clear_lines` removes exactly the fully
filled rows, keeps the others in their original relative order (the survivors
are a sublist of the old grid), prepends exactly `cleared` fresh zero rows so
the height is restored, and returns the number of rows removed. -/
theorem clear_lines_spec (b : Board) (h : b.grid.length = b.height) :
    b.clear_lines.1 = (b.grid.filter fullRow).length ∧
    b.clear_lines.2.grid =
      List.replicate b.clear_lines.1 (List.replicate b.width 0) ++
        b.grid.filter (fun r => !(fullRow r)) ∧
    List.Sublist (b.grid.filter (fun r => !(fullRow r))) b.grid ∧
    b.clear_lines.2.grid.length = b.height := by
  have hsplit := List.length_eq_length_filter_add (l := b.grid) fullRow
  have hle : (b.grid.filter (fun r => !(fullRow r))).length ≤ b.grid.length :=
    (List.filter_sublist _).length_le
  have h1 : b.clear_lines.1 =
      b.height - (b.grid.filter (fun r => !(fullRow r))).length := rfl
  have h2 : b.clear_lines.2.grid =
      List.replicate b.clear_lines.1 (List.replicate b.width 0) ++
        b.grid.filter (fun r => !(fullRow r)) := rfl
  refine ⟨?_, h2, List.filter_sublist _, ?_⟩
  · rw [h1]; omega
  · rw [h2, List.length_append, List.length_replicate, h1]; omega

/-- Witness for C5 at `stripedBoard`. -/
theorem clear_lines_spec_witness :
    stripedBoard.clear_lines.1 = (stripedBoard.grid.filter fullRow).length ∧
    stripedBoard.clear_lines.2.grid =
      List.replicate stripedBoard.clear_lines.1 (List.replicate stripedBoard.width 0) ++
        stripedBoard.grid.filter (fun r => !(fullRow r)) ∧
    List.Sublist (stripedBoard.grid.filter (fun r => !(fullRow r))) stripedBoard.grid ∧
    stripedBoard.clear_lines.2.grid.length = stripedBoard.height :=
  clear_lines_spec stripedBoard (by decide)

/-! ### C3: lock-event scoring -/

/-- Unfolding equation for `lock_piece` on a board with a current piece. -/
theorem lock_piece_eq (b : Board) (cur : FallingPiece) (h : b.current = some cur) :
    b.lock_piece =
      (let b1 : Board :=
         { b with grid := commitCells b.width b.height cur.cells b.grid,
                  current := none }
       let r := b1.clear_lines
       if r.1 ≠ 0 then
         { r.2 with lines_cleared := r.2.lines_cleared + r.1,
                    score := r.2.score + r.2.calculate_score r.1,
                    level := (r.2.lines_cleared + r.1) / 10 + 1 }
       else r.2) := by
  unfold Board.lock_piece
  rw [h]

/-- C3: a lock event clearing `n` rows adds `scoreBase n × level` points where
the level is read before this lock's level recompute (`scoreBase` being
`{1: 100, 2: 300, 3: 500, 4: 800}` and 0 at any other count), adds `n` to the
line counter, recomputes `level = lines_cleared / 10 + 1` whenever `n ≠ 0`,
and leaves the level untouched when `n = 0` — so whenever the level already
satisfied the leveling formula, it satisfies it afterwards as well. -/
theorem lock_scoring (b : Board) (cur : FallingPiece) (h : b.current = some cur)
    (n : Nat)
    (hn : ({ b with grid := commitCells b.width b.height cur.cells b.grid,
                    current := none } : Board).clear_lines.1 = n) :
    b.lock_piece.score = b.score + scoreBase n * b.level ∧
    b.lock_piece.lines_cleared = b.lines_cleared + n ∧
    (n ≠ 0 → b.lock_piece.level = (b.lines_cleared + n) / 10 + 1) ∧
    (n = 0 → b.lock_piece.level = b.level) ∧
    (b.level = b.lines_cleared / 10 + 1 →
      b.lock_piece.level = b.lock_piece.lines_cleared / 10 + 1) := by
  rw [lock_piece_eq b cur h]
  simp only [Board.clear_lines] at hn ⊢
  rw [hn]
  by_cases hz : n = 0
  · subst hz
    simp [Board.calculate_score, scoreBase]
  · simp [if_pos hz, Board.calculate_score, hz]

/-- Witness for C3: a simultaneous 4-row clear at level 1 awards exactly
`scoreBase 4 × 1 = 800` points. -/
theorem lock_scoring_witness :
    tetrisBoard.lock_piece.score = tetrisBoard.score + scoreBase 4 * tetrisBoard.level ∧
    tetrisBoard.lock_piece.score = 800 ∧ tetrisBoard.lock_piece.level = 1 :=
  ⟨(lock_scoring tetrisBoard ⟨tetO, 0, 0, 0⟩ rfl 4 (by decide)).1,
   by decide, by decide⟩

/-! ### C7: gravity termination on a fresh spawn -/

/-- C7: for every catalog tetromino freshly spawned on an empty 10×20 board,
the first 18 calls of `move(0, 1)` return true, the 19th returns false while
locking the piece (`current` becomes absent and its four cells are committed),
so the total call count `19 ≤ 20 = height`; `hard_drop` performs exactly this
sequence and terminates in that locked state. -/
theorem soft_drop_floor :
    ∀ t ∈ TETROMINOES,
      ((Board.init 10 20 t).spawn_piece t).1 = true ∧
      (∀ k, k < 18 →
        ((moveDownIter k ((Board.init 10 20 t).spawn_piece t).2).move 0 1).1
          = true) ∧
      ((moveDownIter 18 ((Board.init 10 20 t).spawn_piece t).2).move 0 1).1
        = false ∧
      ((moveDownIter 18 ((Board.init 10 20 t).spawn_piece t).2).move 0 1).2.current
        = none ∧
      18 + 1 ≤ 20 ∧
      ((Board.init 10 20 t).spawn_piece t).2.hard_drop =
        ((moveDownIter 18 ((Board.init 10 20 t).spawn_piece t).2).move 0 1).2 ∧
      (((Board.init 10 20 t).spawn_piece t).2.hard_drop.grid.map List.sum).sum
        = 4 := by
  decide

/-- Witness for C7 at the I tetromino. -/
theorem soft_drop_floor_witness :
    tetI ∈ TETROMINOES ∧
    ((moveDownIter 18 ((Board.init 10 20 tetI).spawn_piece tetI).2).move 0 1).1
      = false ∧
    (((Board.init 10 20 tetI).spawn_piece tetI).2.hard_drop.grid.map
        List.sum).sum = 4 :=
  ⟨by decide,
   (soft_drop_floor tetI (by decide)).2.2.1,
   (soft_drop_floor tetI (by decide)).2.2.2.2.2.2⟩

/-! ### C6: the ghost piece -/

/-- Shifting a piece shifts each of its occupied cells. -/
theorem moved_cells_mem (p : FallingPiece) (dx dy : Int) {x0 y0 : Int}
    (h : (x0, y0) ∈ p.cells) : (x0 + dx, y0 + dy) ∈ (p.moved dx dy).cells := by
  unfold FallingPiece.cells at h ⊢
  unfold FallingPiece.moved
  rcases List.mem_map.1 h with ⟨c, hc, he⟩
  refine List.mem_map.2 ⟨c, hc, ?_⟩
  simp only [Prod.mk.injEq] at he ⊢
  obtain ⟨h1, h2⟩ := he
  constructor <;> omega

/-- Unpacking `is_valid_position`: every cell of a valid piece is in bounds
and sits on an empty grid cell. -/
theorem validOn_cells {w h : Nat} {g : List (List Nat)} {p : FallingPiece}
    (hv : validOn w h g p = true) :
    ∀ c ∈ p.cells, 0 ≤ c.1 ∧ c.1 < (w : Int) ∧ 0 ≤ c.2 ∧ c.2 < (h : Int) ∧
      cellAt g c.1 c.2 = 0 := by
  intro c hc
  have hall := List.all_eq_true.1 hv c hc
  simp only [Bool.and_eq_true, decide_eq_true_eq, beq_iff_eq] at hall
  exact ⟨hall.1.1.1.1, hall.1.1.1.2, hall.1.1.2, hall.1.2, hall.2⟩

/-- A piece owning a cell at or below the bottom edge is invalid. -/
theorem validOn_eq_false {w h : Nat} {g : List (List Nat)} {p : FallingPiece}
    {x0 y0 : Int} (hc : (x0, y0) ∈ p.cells) (hy : (h : Int) ≤ y0) :
    validOn w h g p = false := by
  by_contra hne
  have hv : validOn w h g p = true := by
    cases hb : validOn w h g p
    · exact absurd hb hne
    · rfl
  have := validOn_cells hv _ hc
  simp only at this
  omega

/-- `ghostAux` keeps the anchor column, the rotation and the tetromino, and
never moves the piece up. -/
theorem ghostAux_frame (b : Board) (fuel : Nat) (g : FallingPiece) :
    (ghostAux b fuel g).x = g.x ∧ (ghostAux b fuel g).rotation = g.rotation ∧
    (ghostAux b fuel g).tetromino = g.tetromino ∧ g.y ≤ (ghostAux b fuel g).y := by
  induction fuel generalizing g with
  | zero => exact ⟨rfl, rfl, rfl, le_refl _⟩
  | succ n ih =>
    unfold ghostAux
    split
    · have h := ih (g.moved 0 1)
      have hx : (g.moved 0 1).x = g.x := by
        simp [FallingPiece.moved]
      have hy : (g.moved 0 1).y = g.y + 1 := rfl
      refine ⟨h.1.trans hx, h.2.1, h.2.2.1, ?_⟩
      have := h.2.2.2
      omega
    · exact ⟨rfl, rfl, rfl, le_refl _⟩

/-- `ghostAux` started at a valid position stays valid. -/
theorem ghostAux_valid (b : Board) (fuel : Nat) (g : FallingPiece)
    (hv : b.is_valid_position g = true) :
    b.is_valid_position (ghostAux b fuel g) = true := by
  induction fuel generalizing g with
  | zero => exact hv
  | succ n ih =>
    unfold ghostAux
    split
    next hstep => exact ih _ hstep
    next hstep => exact hv

/-- With enough fuel the `ghostAux` loop runs to completion: advancing its
result once more is invalid. -/
theorem ghostAux_max (b : Board) (fuel : Nat) :
    ∀ (g : FallingPiece) (x0 y0 : Int),
      (x0, y0) ∈ g.cells → (b.height : Int) ≤ y0 + (fuel : Int) →
      b.is_valid_position ((ghostAux b fuel g).moved 0 1) = false := by
  induction fuel with
  | zero =>
    intro g x0 y0 hc hy
    exact validOn_eq_false (moved_cells_mem g 0 1 hc)
      (by push_cast at hy; omega)
  | succ n ih =>
    intro g x0 y0 hc hy
    unfold ghostAux
    split
    next hstep =>
      exact ih (g.moved 0 1) (x0 + 0) (y0 + 1) (moved_cells_mem g 0 1 hc)
        (by push_cast at hy ⊢; omega)
    next hstep => exact Bool.eq_false_iff.mpr hstep

/-- Every rotation state of every catalog tetromino has at least one filled
cell, and every catalog tetromino has at least one rotation state. -/
theorem catalog_rotations : ∀ t ∈ TETROMINOES,
    t.rotations.length ≠ 0 ∧ ∀ g ∈ t.rotations, iter_cells g ≠ [] := by
  decide

/-- A piece referencing a catalog tetromino occupies at least one cell. -/
theorem cells_ne_nil (p : FallingPiece) (ht : p.tetromino ∈ TETROMINOES) :
    p.cells ≠ [] := by
  unfold FallingPiece.cells
  have hcat := catalog_rotations p.tetromino ht
  have hidx : (p.rotation % (p.tetromino.rotations.length : Int)).toNat <
      p.tetromino.rotations.length := by
    have hpos : (0 : Int) < (p.tetromino.rotations.length : Int) := by
      exact_mod_cast Nat.pos_of_ne_zero hcat.1
    have h1 := Int.emod_nonneg p.rotation (ne_of_gt hpos)
    have h2 := Int.emod_lt_of_pos p.rotation hpos
    omega
  have hmem : p.tetromino.rotated p.rotation ∈ p.tetromino.rotations := by
    unfold Tetromino.rotated
    rw [List.getD_eq_getElem _ _ hidx]
    exact List.getElem_mem hidx
  have hne := hcat.2 _ hmem
  simp only [ne_eq, List.map_eq_nil_iff]
  exact hne

/-- C6: `ghost_piece` is absent exactly when no piece is falling; when
present it keeps the column, rotation and tetromino of `current`, sits at
`y ≥ current.y`, is itself a valid position whenever `current` is (as the
board invariant guarantees), and — for a catalog piece — is maximal: one
further downward step is invalid.  The computation builds fresh piece values
and returns them without writing to the board, which the embedding reflects
by typing it `Board → Option FallingPiece`. -/
theorem ghost_piece_spec (b : Board) :
    (b.ghost_piece = none ↔ b.current = none) ∧
    (∀ cur gh, b.current = some cur → b.ghost_piece = some gh →
      gh.x = cur.x ∧ gh.rotation = cur.rotation ∧
      gh.tetromino = cur.tetromino ∧ cur.y ≤ gh.y ∧
      (b.is_valid_position cur = true → b.is_valid_position gh = true) ∧
      (b.is_valid_position cur = true → cur.tetromino ∈ TETROMINOES →
        b.is_valid_position (gh.moved 0 1) = false)) := by
  constructor
  · unfold Board.ghost_piece
    cases hc : b.current <;> simp [hc]
  · intro cur gh hc hg
    unfold Board.ghost_piece at hg
    rw [hc] at hg
    have hgh : gh = ghostAux b (b.height + 1) cur := by
      exact (Option.some.injEq _ _ ▸ hg).symm
    subst hgh
    have hframe := ghostAux_frame b (b.height + 1) cur
    refine ⟨hframe.1, hframe.2.1, hframe.2.2.1, hframe.2.2.2,
            fun hv => ghostAux_valid b _ cur hv, fun hv ht => ?_⟩
    obtain ⟨c, hcmem⟩ := List.exists_mem_of_ne_nil _ (cells_ne_nil cur ht)
    obtain ⟨x0, y0⟩ := c
    have hb := validOn_cells hv _ hcmem
    simp only at hb
    exact ghostAux_max b (b.height + 1) cur x0 y0 hcmem
      (by push_cast; omega)

/-- Witness for C6: the ghost of the freshly spawned O piece rests on the
floor at y = 18, valid there and blocked one row further down. -/
theorem ghost_piece_spec_witness :
    sampleBoard.is_valid_position (⟨tetO, 0, 4, 18⟩ : FallingPiece) = true ∧
    sampleBoard.is_valid_position
      ((⟨tetO, 0, 4, 18⟩ : FallingPiece).moved 0 1) = false :=
  ⟨((ghost_piece_spec sampleBoard).2 pieceO ⟨tetO, 0, 4, 18⟩ (by decide)
      (by decide)).2.2.2.2.1 (by decide),
   ((ghost_piece_spec sampleBoard).2 pieceO ⟨tetO, 0, 4, 18⟩ (by decide)
      (by decide)).2.2.2.2.2 (by decide) (by decide)⟩

/-! ### C1: the validity invariant over all reachable states -/

/-- `clear_lines` only touches the grid: `current` is untouched. -/
theorem clear_lines_current (b : Board) : b.clear_lines.2.current = b.current :=
  rfl

/-- A positive-width row of zeroes is not full. -/
theorem fullRow_replicate_zero {w : Nat} (hw : 0 < w) :
    fullRow (List.replicate w 0) = false := by
  cases w with
  | zero => omega
  | succ n => simp [fullRow, List.replicate_succ]

/-- A guarded cell write keeps the grid an `h × w` matrix. -/
theorem gridOk_writeCell (w h : Nat) (g : List (List Nat)) (c : Int × Int)
    (v : Nat) (hg : gridOk w h g) : gridOk w h (writeCell w h g c v) := by
  unfold writeCell
  split
  next hcnd =>
    obtain ⟨h1, h2, _⟩ := hcnd
    constructor
    · rw [List.length_set]; exact hg.1
    · intro r hr
      rcases List.mem_or_eq_of_mem_set hr with hmem | heq
      · exact hg.2 r hmem
      · subst heq
        rw [List.length_set]
        have hlt : c.2.toNat < g.length := by rw [hg.1]; omega
        rw [List.getD_eq_getElem _ _ hlt]
        exact hg.2 _ (List.getElem_mem hlt)
  next => exact hg

/-- Committing a piece's cells keeps the grid an `h × w` matrix. -/
theorem gridOk_commit (w h : Nat) (cells : List (Int × Int))
    (g : List (List Nat)) (hg : gridOk w h g) :
    gridOk w h (commitCells w h cells g) := by
  induction cells generalizing g with
  | nil => exact hg
  | cons c cs ih => exact ih _ (gridOk_writeCell w h g c 1 hg)

/-- Line clearing restores an `h × w` matrix. -/
theorem gridOk_clear (b : Board) (hg : gridOk b.width b.height b.grid) :
    gridOk b.width b.height b.clear_lines.2.grid := by
  have hle : (b.grid.filter (fun row => !(fullRow row))).length ≤ b.height := by
    rw [← hg.1]; exact (List.filter_sublist _).length_le
  constructor
  · show (List.replicate
        (b.height - (b.grid.filter (fun row => !(fullRow row))).length)
        (List.replicate b.width 0) ++
        b.grid.filter (fun row => !(fullRow row))).length = b.height
    rw [List.length_append, List.length_replicate]
    omega
  · intro r hr
    rcases List.mem_append.1 hr with hmem | hmem
    · rw [List.eq_of_mem_replicate hmem]; exact List.length_replicate _ _
    · exact hg.2 r (List.mem_of_mem_filter hmem)

/-- A cleared positive-width grid retains no full row. -/
theorem noFullRows_clear (b : Board) (hw : 0 < b.width) :
    noFullRows b.clear_lines.2.grid := by
  intro r hr
  rcases List.mem_append.1 hr with hmem | hmem
  · rw [List.eq_of_mem_replicate hmem]; exact fullRow_replicate_zero hw
  · simpa using (List.mem_filter.1 hmem).2

/-- On a height-sized grid with no full rows, `clear_lines` clears nothing
and returns the board unchanged. -/
theorem clear_lines_noop (b : Board) (hg : b.grid.length = b.height)
    (hnf : noFullRows b.grid) : b.clear_lines = (0, b) := by
  unfold Board.clear_lines
  have hfil : b.grid.filter (fun row => !(fullRow row)) = b.grid :=
    List.filter_eq_self.mpr (fun r hr => by simp [hnf r hr])
  simp [hfil, hg]

/-- The fresh board satisfies the invariant. -/
theorem inv_init (w h : Nat) (t : Tetromino) (ht : t ∈ TETROMINOES) :
    Inv (Board.init w h t) := by
  refine ⟨⟨by simp [Board.init], ?_⟩, ?_, ht, ?_⟩
  · intro r hr
    rw [List.eq_of_mem_replicate hr]
    exact List.length_replicate _ _
  · intro hw r hr
    rw [List.eq_of_mem_replicate hr]
    exact fullRow_replicate_zero hw
  · intro p hp
    simp [Board.init] at hp

/-- `spawn_piece` preserves the invariant. -/
theorem inv_spawn (b : Board) (t : Tetromino) (ht : t ∈ TETROMINOES)
    (h : Inv b) : Inv (b.spawn_piece t).2 := by
  rw [spawn_piece_eq]
  split
  next hv =>
    refine ⟨h.1, h.2.1, ht, ?_⟩
    intro p hp
    simp only [Option.some.injEq] at hp
    subst hp
    exact ⟨hv, h.2.2.1⟩
  next hv =>
    refine ⟨h.1, h.2.1, ht, ?_⟩
    intro p hp
    exact h.2.2.2 p hp

/-- `lock_piece` preserves the invariant. -/
theorem inv_lock (b : Board) (h : Inv b) : Inv b.lock_piece := by
  cases hc : b.current with
  | none =>
    unfold Board.lock_piece
    rw [hc]
    exact h
  | some cur =>
    rw [lock_piece_eq b cur hc]
    have hg1 : gridOk b.width b.height
        (commitCells b.width b.height cur.cells b.grid) :=
      gridOk_commit _ _ _ _ h.1
    have hg2 := gridOk_clear
      { b with grid := commitCells b.width b.height cur.cells b.grid,
               current := none } hg1
    have hnf := fun hw => noFullRows_clear
      { b with grid := commitCells b.width b.height cur.cells b.grid,
               current := none } hw
    dsimp only
    split <;>
      exact ⟨hg2, hnf, h.2.2.1, fun p hp => by
        rw [clear_lines_current] at hp
        simp at hp⟩

/-- `move` preserves the invariant. -/
theorem inv_move (b : Board) (dx dy : Int) (h : Inv b) :
    Inv (b.move dx dy).2 := by
  unfold Board.move
  cases hc : b.current with
  | none => exact h
  | some cur =>
    dsimp only
    split
    next hv =>
      refine ⟨h.1, h.2.1, h.2.2.1, ?_⟩
      intro p hp
      simp only [Option.some.injEq] at hp
      subst hp
      exact ⟨hv, (h.2.2.2 cur hc).2⟩
    next hv =>
      split
      next hdy => exact inv_lock b h
      next hdy => exact h

/-- `rotate` preserves the invariant. -/
theorem inv_rotate (b : Board) (delta : Int) (h : Inv b) :
    Inv (b.rotate delta).2 := by
  unfold Board.rotate
  cases hc : b.current with
  | none => exact h
  | some cur =>
    dsimp only
    split
    next hv =>
      refine ⟨h.1, h.2.1, h.2.2.1, ?_⟩
      intro p hp
      simp only [Option.some.injEq] at hp
      subst hp
      exact ⟨hv, (h.2.2.2 cur hc).2⟩
    next hv => exact h

/-- The hard-drop loop preserves the invariant. -/
theorem inv_hardDropAux (fuel : Nat) (b : Board) (h : Inv b) :
    Inv (hardDropAux fuel b) := by
  induction fuel generalizing b with
  | zero => exact h
  | succ n ih =>
    unfold hardDropAux
    dsimp only
    split
    · exact ih _ (inv_move b 0 1 h)
    · exact inv_move b 0 1 h

/-- `hard_drop` preserves the invariant. -/
theorem inv_hard_drop (b : Board) (h : Inv b) : Inv b.hard_drop := by
  unfold Board.hard_drop
  cases hc : b.current with
  | none => exact h
  | some cur => exact inv_hardDropAux _ b h

/-- `clear_lines` preserves the invariant: with a current piece present the
invariant forces a full-free grid, so clearing is the identity; without one
the cleared grid trivially satisfies the invariant. -/
theorem inv_clear (b : Board) (h : Inv b) : Inv b.clear_lines.2 := by
  cases hc : b.current with
  | none =>
    refine ⟨gridOk_clear b h.1, fun hw => noFullRows_clear b hw, h.2.2.1, ?_⟩
    intro p hp
    rw [show b.clear_lines.2.current = b.current from rfl, hc] at hp
    cases hp
  | some cur =>
    obtain ⟨hv, ht⟩ := h.2.2.2 cur hc
    obtain ⟨c, hcmem⟩ := List.exists_mem_of_ne_nil _ (cells_ne_nil cur ht)
    obtain ⟨x0, y0⟩ := c
    have hb := validOn_cells hv _ hcmem
    simp only at hb
    have hw : 0 < b.width := by omega
    have hnoop := clear_lines_noop b h.1.1 (h.2.1 hw)
    rw [hnoop]
    exact h

/-- Every reachable board satisfies the invariant. -/
theorem reachable_inv (b : Board) (h : Reachable b) : Inv b := by
  induction h with
  | start w h t ht => exact inv_init w h t ht
  | spawn b t ht hb ih => exact inv_spawn b t ht ih
  | move b dx dy hb ih => exact inv_move b dx dy ih
  | rot b delta hb ih => exact inv_rotate b delta ih
  | harddrop b hb ih => exact inv_hard_drop b ih
  | lock b hb ih => exact inv_lock b ih
  | clear b hb ih => exact inv_clear b ih

/-- C1: on every board reachable through the public operations
(`spawn_piece`, `move`, `rotate`, `hard_drop`, `lock_piece`, `clear_lines`;
`ghost_piece` and `as_rows` leave the state untouched), whenever a current
piece is present its position is valid — every occupied cell is in bounds
and on an unfilled grid cell. -/
theorem current_always_valid (b : Board) (hb : Reachable b)
    (p : FallingPiece) (hp : b.current = some p) :
    b.is_valid_position p = true :=
  ((reachable_inv b hb).2.2.2 p hp).1

/-- Witness for C1: the freshly spawned O piece on a fresh 10×20 board. -/
theorem current_always_valid_witness :
    ((Board.init 10 20 tetO).spawn_piece tetO).2.is_valid_position pieceO
      = true :=
  current_always_valid _
    (Reachable.spawn _ tetO (by decide) (Reachable.start 10 20 tetO (by decide)))
    pieceO (by decide)

/-! ### C9: the `as_rows` snapshot -/

/-- `getD` after `set` at the same in-range index. -/
theorem getD_set_eq_of_lt {α : Type} (l : List α) (i : Nat) (a d : α)
    (h : i < l.length) : (l.set i a).getD i d = a := by
  rw [List.getD_eq_getElem _ _ (by simpa)]
  exact List.getElem_set_self _

/-- `getD` after `set` at a different index. -/
theorem getD_set_ne {α : Type} (l : List α) {i j : Nat} (a d : α)
    (h : i ≠ j) : (l.set i a).getD j d = l.getD j d := by
  by_cases hj : j < l.length
  · rw [List.getD_eq_getElem _ _ (by simpa), List.getD_eq_getElem _ _ hj]
    exact List.getElem_set_ne h _
  · rw [List.getD_eq_default, List.getD_eq_default] <;> simp_all

/-- `cellAt` at coerced natural coordinates is `getRC`. -/
theorem cellAt_coe (g : List (List Nat)) (x y : Nat) :
    cellAt g (x : Int) (y : Int) = getRC g y x := by
  simp [cellAt, getRC]

/-- Membership bridge for `coversCell` on a present piece. -/
theorem coversCell_some (p : FallingPiece) (x y : Nat) :
    coversCell (some p) x y = true ↔ ((x : Int), (y : Int)) ∈ p.cells := by
  simp [coversCell]

/-- In-range cells of a 0/1 matrix are 0 or 1. -/
theorem getRC_values {w h : Nat} {g : List (List Nat)} (hg : gridOk w h g)
    (hvals : ∀ r ∈ g, ∀ v ∈ r, v = 0 ∨ v = 1) {y x : Nat} (hy : y < h)
    (hx : x < w) : getRC g y x = 0 ∨ getRC g y x = 1 := by
  have hylen : y < g.length := by rw [hg.1]; omega
  have hrow : g.getD y [] ∈ g := by
    rw [List.getD_eq_getElem _ _ hylen]; exact List.getElem_mem hylen
  have hrlen : (g.getD y []).length = w := hg.2 _ hrow
  have hx2 : x < (g.getD y []).length := by omega
  have hmem : (g.getD y []).getD x 0 ∈ g.getD y [] := by
    rw [List.getD_eq_getElem _ _ hx2]; exact List.getElem_mem hx2
  exact hvals _ hrow _ hmem

/-- Pointwise effect of one guarded 2-write (or any `v`-write). -/
theorem getRC_writeCell (w h : Nat) (g : List (List Nat)) (c : Int × Int)
    (v : Nat) (hg : gridOk w h g) {y x : Nat} (hy : y < h) (hx : x < w) :
    getRC (writeCell w h g c v) y x =
      if c = ((x : Int), (y : Int)) then v else getRC g y x := by
  unfold writeCell
  split
  next hcnd =>
    obtain ⟨cxi, cyi⟩ := c
    simp only at hcnd ⊢
    obtain ⟨h1, h2, h3, h4⟩ := hcnd
    obtain ⟨cy, rfl⟩ : ∃ n : Nat, cyi = (n : Int) :=
      ⟨cyi.toNat, (Int.toNat_of_nonneg h1).symm⟩
    obtain ⟨cx, rfl⟩ : ∃ n : Nat, cxi = (n : Int) :=
      ⟨cxi.toNat, (Int.toNat_of_nonneg h3).symm⟩
    simp only [Int.toNat_ofNat]
    have hcast : (((cx : Int), (cy : Int)) : Int × Int) =
        ((x : Int), (y : Int)) ↔ (cx = x ∧ cy = y) := by
      simp [Prod.ext_iff]
    have hylen : cy < g.length := by rw [hg.1]; omega
    have hrowlen : (g.getD cy []).length = w := by
      rw [List.getD_eq_getElem _ _ hylen]
      exact hg.2 _ (List.getElem_mem hylen)
    unfold getRC
    by_cases hyy : cy = y
    · subst hyy
      rw [getD_set_eq_of_lt _ _ _ _ hylen]
      by_cases hxx : cx = x
      · subst hxx
        rw [getD_set_eq_of_lt _ _ _ _ (by omega),
            if_pos (hcast.mpr ⟨rfl, rfl⟩)]
      · rw [getD_set_ne _ _ _ hxx, if_neg (fun hcc => hxx (hcast.mp hcc).1)]
    · rw [getD_set_ne _ _ _ hyy, if_neg (fun hcc => hyy (hcast.mp hcc).2)]
  next hcnd =>
    have hne : c ≠ ((x : Int), (y : Int)) := by
      intro hcc
      subst hcc
      exact hcnd ⟨by simp, by simpa using hy, by simp, by simpa using hx⟩
    rw [if_neg hne]

/-- Painting a value over a cell list keeps the grid an `h × w` matrix. -/
theorem gridOk_paint (w h : Nat) (v : Nat) (cells : List (Int × Int))
    (g : List (List Nat)) (hg : gridOk w h g) :
    gridOk w h (cells.foldl (fun g c => writeCell w h g c v) g) := by
  induction cells generalizing g with
  | nil => exact hg
  | cons c cs ih => exact ih _ (gridOk_writeCell w h g c v hg)

/-- Pointwise effect of painting a value over a whole cell list. -/
theorem getRC_paint (w h : Nat) (cells : List (Int × Int))
    (g : List (List Nat)) (v : Nat) (hg : gridOk w h g) {y x : Nat}
    (hy : y < h) (hx : x < w) :
    getRC (cells.foldl (fun g c => writeCell w h g c v) g) y x =
      if ((x : Int), (y : Int)) ∈ cells then v else getRC g y x := by
  induction cells generalizing g with
  | nil => simp
  | cons c cs ih =>
    rw [List.foldl_cons, ih _ (gridOk_writeCell w h g c v hg),
        getRC_writeCell w h g c v hg hy hx]
    by_cases hmem : ((x : Int), (y : Int)) ∈ cs
    · simp [hmem]
    · by_cases hceq : c = ((x : Int), (y : Int))
      · simp [hmem, hceq]
      · have hceq2 : ¬(((x : Int), (y : Int)) = c) := fun hh => hceq hh.symm
        simp [hmem, hceq, hceq2]

/-- A guarded ghost write keeps the grid an `h × w` matrix. -/
theorem gridOk_writeGhostCell (w h : Nat) (g : List (List Nat))
    (c : Int × Int) (hg : gridOk w h g) :
    gridOk w h (writeGhostCell w h g c) := by
  unfold writeGhostCell
  split
  next hcnd =>
    obtain ⟨h1, h2, _⟩ := hcnd
    constructor
    · rw [List.length_set]; exact hg.1
    · intro r hr
      rcases List.mem_or_eq_of_mem_set hr with hmem | heq
      · exact hg.2 r hmem
      · subst heq
        rw [List.length_set]
        have hlt : c.2.toNat < g.length := by rw [hg.1]; omega
        rw [List.getD_eq_getElem _ _ hlt]
        exact hg.2 _ (List.getElem_mem hlt)
  next => exact hg

/-- Pointwise effect of one guarded ghost write: 3 lands only on a cell that
is currently 0. -/
theorem getRC_writeGhostCell (w h : Nat) (g : List (List Nat))
    (c : Int × Int) (hg : gridOk w h g) {y x : Nat} (hy : y < h)
    (hx : x < w) :
    getRC (writeGhostCell w h g c) y x =
      if c = ((x : Int), (y : Int)) ∧ getRC g y x = 0 then 3
      else getRC g y x := by
  unfold writeGhostCell
  split
  next hcnd =>
    obtain ⟨cxi, cyi⟩ := c
    simp only at hcnd ⊢
    obtain ⟨h1, h2, h3, h4, h5⟩ := hcnd
    obtain ⟨cy, rfl⟩ : ∃ n : Nat, cyi = (n : Int) :=
      ⟨cyi.toNat, (Int.toNat_of_nonneg h1).symm⟩
    obtain ⟨cx, rfl⟩ : ∃ n : Nat, cxi = (n : Int) :=
      ⟨cxi.toNat, (Int.toNat_of_nonneg h3).symm⟩
    rw [cellAt_coe] at h5
    simp only [Int.toNat_ofNat]
    have hcast : (((cx : Int), (cy : Int)) : Int × Int) =
        ((x : Int), (y : Int)) ↔ (cx = x ∧ cy = y) := by
      simp [Prod.ext_iff]
    have hylen : cy < g.length := by rw [hg.1]; omega
    have hrowlen : (g.getD cy []).length = w := by
      rw [List.getD_eq_getElem _ _ hylen]
      exact hg.2 _ (List.getElem_mem hylen)
    unfold getRC
    by_cases hyy : cy = y
    · subst hyy
      rw [getD_set_eq_of_lt _ _ _ _ hylen]
      by_cases hxx : cx = x
      · subst hxx
        rw [getD_set_eq_of_lt _ _ _ _ (by omega),
            if_pos ⟨hcast.mpr ⟨rfl, rfl⟩, h5⟩]
      · rw [getD_set_ne _ _ _ hxx,
            if_neg (fun hcc => hxx (hcast.mp hcc.1).1)]
    · rw [getD_set_ne _ _ _ hyy,
          if_neg (fun hcc => hyy (hcast.mp hcc.1).2)]
  next hcnd =>
    by_cases hceq : c = ((x : Int), (y : Int))
    · subst hceq
      rw [if_neg ?_]
      intro hcc
      exact hcnd ⟨by simp, by simpa using hy, by simp, by simpa using hx,
                  by simpa [cellAt_coe] using hcc.2⟩
    · rw [if_neg (fun hcc => hceq hcc.1)]

/-- Ghost painting keeps the grid an `h × w` matrix. -/
theorem gridOk_paintGhost (w h : Nat) (cells : List (Int × Int))
    (g : List (List Nat)) (hg : gridOk w h g) :
    gridOk w h (cells.foldl (fun g c => writeGhostCell w h g c) g) := by
  induction cells generalizing g with
  | nil => exact hg
  | cons c cs ih => exact ih _ (gridOk_writeGhostCell w h g c hg)

/-- Pointwise effect of the whole ghost-painting pass. -/
theorem getRC_paintGhost (w h : Nat) (cells : List (Int × Int))
    (g : List (List Nat)) (hg : gridOk w h g) {y x : Nat} (hy : y < h)
    (hx : x < w) :
    getRC (cells.foldl (fun g c => writeGhostCell w h g c) g) y x =
      if ((x : Int), (y : Int)) ∈ cells ∧ getRC g y x = 0 then 3
      else getRC g y x := by
  induction cells generalizing g with
  | nil => simp
  | cons c cs ih =>
    rw [List.foldl_cons, ih _ (gridOk_writeGhostCell w h g c hg),
        getRC_writeGhostCell w h g c hg hy hx]
    by_cases hceq : c = ((x : Int), (y : Int))
    · subst hceq
      by_cases h0 : getRC g y x = 0
      · simp [h0]
      · simp [h0]
    · have hceq2 : ¬(((x : Int), (y : Int)) = c) := fun hh => hceq hh.symm
      by_cases hmem : ((x : Int), (y : Int)) ∈ cs <;>
        by_cases h0 : getRC g y x = 0 <;>
          simp [hceq, hceq2, hmem, h0]

/-- C9: `as_rows` is a `height × width` snapshot in which current-piece cells
read 2, ghost cells read 3 only where the underlying grid cell is 0 and the
current piece does not sit (the ghost never overwrites a locked or
current-piece cell), locked cells read 1, and everything else reads 0.  The
pass copies the rows before painting, which the embedding reflects by typing
it `Board → List (List Nat)` with the board untouched. -/
theorem as_rows_spec (b : Board) (hg : gridOk b.width b.height b.grid)
    (hvals : ∀ r ∈ b.grid, ∀ v ∈ r, v = 0 ∨ v = 1)
    (y x : Nat) (hy : y < b.height) (hx : x < b.width) :
    b.as_rows.length = b.height ∧
    (∀ r ∈ b.as_rows, r.length = b.width) ∧
    getRC b.as_rows y x =
      (if coversCell b.current x y then 2
       else if coversCell b.ghost_piece x y = true ∧ getRC b.grid y x = 0
         then 3
       else if getRC b.grid y x = 0 then 0 else 1) := by
  cases hc : b.current with
  | none =>
    have hgh : b.ghost_piece = none := by unfold Board.ghost_piece; rw [hc]
    have hrows : b.as_rows = b.grid := by unfold Board.as_rows; rw [hc, hgh]
    rw [hrows, hgh]
    refine ⟨hg.1, hg.2, ?_⟩
    rcases getRC_values hg hvals hy hx with h0 | h0 <;>
      simp [coversCell, h0]
  | some cur =>
    have hgh : b.ghost_piece = some (ghostAux b (b.height + 1) cur) := by
      unfold Board.ghost_piece; rw [hc]
    have hrows : b.as_rows =
        (ghostAux b (b.height + 1) cur).cells.foldl
          (fun g c => writeGhostCell b.width b.height g c)
          (cur.cells.foldl (fun g c => writeCell b.width b.height g c 2)
            b.grid) := by
      unfold Board.as_rows
      rw [hc, hgh]
    have hg1 : gridOk b.width b.height
        (cur.cells.foldl (fun g c => writeCell b.width b.height g c 2)
          b.grid) := gridOk_paint _ _ 2 _ _ hg
    have hgall := gridOk_paintGhost _ _
      (ghostAux b (b.height + 1) cur).cells _ hg1
    rw [hrows, hgh]
    refine ⟨hgall.1, hgall.2, ?_⟩
    rw [getRC_paintGhost _ _ _ _ hg1 hy hx, getRC_paint _ _ _ _ 2 hg hy hx]
    by_cases hcov : ((x : Int), (y : Int)) ∈ cur.cells <;>
      by_cases hghm : ((x : Int), (y : Int)) ∈
        (ghostAux b (b.height + 1) cur).cells <;>
        rcases getRC_values hg hvals hy hx with h0 | h0 <;>
          simp [coversCell_some, coversCell, hcov, hghm, h0]

/-- Witness for C9 at `sampleBoard`: the O piece reads 2 at (4, 0), its ghost
reads 3 at (4, 18), and an untouched cell reads 0. -/
theorem as_rows_spec_witness :
    getRC sampleBoard.as_rows 0 4 = 2 ∧
    getRC sampleBoard.as_rows 18 4 = 3 ∧
    getRC sampleBoard.as_rows 5 5 = 0 :=
  ⟨((as_rows_spec sampleBoard ⟨by decide, by decide⟩ (by decide) 0 4
      (by decide) (by decide)).2.2).trans (by decide),
   ((as_rows_spec sampleBoard ⟨by decide, by decide⟩ (by decide) 18 4
      (by decide) (by decide)).2.2).trans (by decide),
   ((as_rows_spec sampleBoard ⟨by decide, by decide⟩ (by decide) 5 5
      (by decide) (by decide)).2.2).trans (by decide)⟩

end Tetris
